import Mathlib

/-!
# ReplaceCopiesByHardlinks: a shallow embedding of `src/main.cc`

The program walks the working directory, groups regular files by file name,
splits every group into classes of byte-identical files and replaces the
copies of each class by hard links to its first member.

The embedding keeps the names of the C++ functions.  The file system is an
explicit state: names bound to inode numbers, inode numbers bound to nodes,
a link count per inode.  A `std::filesystem` call that throws is modelled by
the `Outcome.threw` constructor, which keeps the state the call left behind.
-/

namespace ReplaceCopiesByHardlinks

/-! ## Data model -/

/-- A path is the `std::string` the program stores in its lists. -/
abbrev Path := String

/-- What an inode holds.  `regular` carries the bytes of the file (values of
`char` read as numbers `0..255`); `directory` and `other` (fifo, socket,
device) are what `is_regular_file` rejects.  Symbolic links are not part of
the model. -/
inductive Node where
  | regular (bytes : List Nat)
  | directory
  | other
deriving DecidableEq, Repr

/-- The two mutating `std::filesystem` calls of the program. -/
inductive Op where
  | remove (p : Path)
  | create_hard_link (src dst : Path)
deriving DecidableEq, Repr

/-- The file system.
* `names`: every name of the volume, in the order `recursive_directory_iterator`
  reports them;
* `dirent`: name to inode number, `none` when nothing exists at the name;
* `node`: inode number to its node;
* `nlink`: the link count stored in the inode;
* `unreadable`: names that cannot be opened for reading: a file whose stream
  fails to open, a directory that cannot be entered;
* `deny_remove`, `deny_link`: names at which `remove`, respectively
  `create_hard_link`, reports an error (permissions, a volume boundary, the
  link limit);
* `journal`: the mutating calls that succeeded so far, oldest first. -/
structure FS where
  names : List Path
  dirent : Path → Option Nat
  node : Nat → Option Node
  nlink : Nat → Nat
  unreadable : Path → Bool
  deny_remove : Path → Bool
  deny_link : Path → Bool
  journal : List Op

/-- How a `void` procedure ends: it returns, or a `filesystem_error`
propagates out of it.  Both keep the file system as it is at that moment. -/
inductive Outcome where
  | returned (fs : FS)
  | threw (fs : FS)

/-- The file system an outcome leaves behind. -/
def Outcome.fs : Outcome → FS
  | .returned fs => fs
  | .threw fs => fs

/-- Whether the procedure ended by a `filesystem_error`. -/
def Outcome.has_thrown : Outcome → Bool
  | .returned _ => false
  | .threw _ => true

/-! ## File system primitives (`std::filesystem`, `std::ifstream`) -/

/-- The node a name resolves to. -/
def FS.lookup (fs : FS) (p : Path) : Option Node :=
  match fs.dirent p with
  | some i => fs.node i
  | none => none

/-- Model of `std::filesystem::exists`. -/
def FS.exists (fs : FS) (p : Path) : Bool :=
  (fs.dirent p).isSome

/-- Model of `std::filesystem::is_regular_file`. -/
def is_regular_file (fs : FS) (p : Path) : Bool :=
  match fs.lookup p with
  | some (.regular _) => true
  | _ => false

/-- Model of `std::filesystem::is_directory`. -/
def is_directory (fs : FS) (p : Path) : Bool :=
  match fs.lookup p with
  | some .directory => true
  | _ => false

/-- Model of the throwing overload of `std::filesystem::hard_link_count`:
`none` stands for the `filesystem_error` it throws when the name does not
exist. -/
def hard_link_count (fs : FS) (p : Path) : Option Nat :=
  match fs.dirent p with
  | some i => some (fs.nlink i)
  | none => none

/-- Model of `std::filesystem::remove`: nothing happens (and `false` is
returned) when the name does not exist; otherwise the name is unbound and the
link count of its inode drops by one, unless the call is refused
(`deny_remove`, which also stands for a directory that is not empty). -/
def remove (fs : FS) (p : Path) : Outcome :=
  match fs.dirent p with
  | none => .returned fs
  | some i =>
    if fs.deny_remove p then .threw fs
    else .returned { fs with
      dirent := fun q => if q = p then none else fs.dirent q
      nlink := fun j => if j = i then fs.nlink i - 1 else fs.nlink j
      journal := fs.journal ++ [Op.remove p] }

/-- A name enters the list of names when it is not yet in it. -/
def add_name (names : List Path) (p : Path) : List Path :=
  if p ∈ names then names else names ++ [p]

/-- Model of `std::filesystem::create_hard_link`: it throws when the source
does not exist or is a directory, when the target exists, or when the call is
refused; otherwise the target name is bound to the inode of the source and the
link count of that inode grows by one. -/
def create_hard_link (fs : FS) (src dst : Path) : Outcome :=
  match fs.dirent src with
  | none => .threw fs
  | some i =>
    if fs.node i = some Node.directory || fs.exists dst || fs.deny_link dst then .threw fs
    else .returned { fs with
      names := add_name fs.names dst
      dirent := fun q => if q = dst then some i else fs.dirent q
      nlink := fun j => if j = i then fs.nlink i + 1 else fs.nlink j
      journal := fs.journal ++ [Op.create_hard_link src dst] }

/-- A `std::ifstream` opened with `std::ios::binary | std::ios::ate`: whether
the `failbit` is set, and the bytes of the file. -/
structure ifstream where
  fail : Bool
  bytes : List Nat
deriving DecidableEq, Repr

/-- Opening a stream on a name: it fails when the name holds no regular file
or cannot be read. -/
def ifstream.open (fs : FS) (p : Path) : ifstream :=
  match fs.lookup p with
  | some (.regular bs) => if fs.unreadable p then ⟨true, []⟩ else ⟨false, bs⟩
  | _ => ⟨true, []⟩

/-- Model of `tellg()` right after opening at the end: the size of the file,
or `-1` on a failed stream. -/
def ifstream.tellg (s : ifstream) : Int :=
  if s.fail then -1 else s.bytes.length

/-- Model of the three-iterator `std::equal` over `istreambuf_iterator<char>`:
it walks the first stream to its end and compares with what the second stream
yields; an exhausted second stream yields the end-of-file value, which as a
`char` is `0xFF`. -/
def std_equal : List Nat → List Nat → Bool
  | [], _ => true
  | a :: as, [] => a == 255 && std_equal as []
  | a :: as, b :: bs => a == b && std_equal as bs

/-! ## The program -/

/-- Model of `identical_file` (main.cc, lines 36-48). -/
def identical_file (fs : FS) (f1 f2 : Path) : Bool :=
  if !is_regular_file fs f1 || !is_regular_file fs f2 then false
  else
    let ifs1 := ifstream.open fs f1
    let ifs2 := ifstream.open fs f2
    if ifs1.tellg != ifs2.tellg || ifs1.fail || ifs2.fail then false
    else std_equal ifs1.bytes ifs2.bytes

/-- The `for` loop of `extract_next_identical_file_group` (lines 55-61): it
walks `files`, moves every entry that `identical_file` equates with the pivot
to the back of `identical` and erases it from `files`.  The result is the pair
of the entries moved and the entries left, both in their order. -/
def extract_loop (identical_file : Path → Path → Bool) (pivot : Path) :
    List Path → List Path × List Path
  | [] => ([], [])
  | f :: files =>
    let r := extract_loop identical_file pivot files
    if identical_file pivot f then (f :: r.1, r.2) else (r.1, f :: r.2)

/-- Model of `extract_next_identical_file_group` (lines 50-64).  The C++
function mutates `files` and returns `identical`; here both come back as a
pair.  On an empty list the C++ code is undefined (`front()`); the program
never calls it so. -/
def extract_next_identical_file_group (identical_file : Path → Path → Bool) :
    List Path → List Path × List Path
  | [] => ([], [])
  | front :: files =>
    let r := extract_loop identical_file front files
    (front :: r.1, r.2)

/-- The `while` loop of `group_identical_files` (lines 68-72), with a bound on
the number of iterations. -/
def group_loop (identical_file : Path → Path → Bool) :
    Nat → List Path → List (List Path)
  | 0, _ => []
  | fuel + 1, paths =>
    if paths.length > 1 then
      let r := extract_next_identical_file_group identical_file paths
      if r.1.length > 1 then r.1 :: group_loop identical_file fuel r.2
      else group_loop identical_file fuel r.2
    else []

/-- Model of `group_identical_files` (lines 66-74).  Every iteration removes
at least one entry, so `paths.length` iterations are enough
(`group_loop_fuel`). -/
def group_identical_files (identical_file : Path → Path → Bool) (paths : List Path) :
    List (List Path) :=
  group_loop identical_file paths.length paths

/-- Model of `delete_all_except_first` applied to the tail of the list (the
`for` loop of lines 78-79): the names are removed one after the other; an
error of `remove` propagates and leaves the later names untouched. -/
def delete_loop : FS → List Path → Outcome
  | fs, [] => .returned fs
  | fs, p :: rest =>
    match remove fs p with
    | .threw fs1 => .threw fs1
    | .returned fs1 => delete_loop fs1 rest

/-- Model of `delete_all_except_first` (lines 76-80). -/
def delete_all_except_first (fs : FS) (paths : List Path) : Outcome :=
  if paths.length < 2 then .returned fs
  else delete_loop fs paths.tail

/-- The `for` loop of `hardlink_first_to_all` (lines 88-91): a name that
exists is skipped, at any other a hard link to `src` is created. -/
def hardlink_loop (src : Path) : FS → List Path → Outcome
  | fs, [] => .returned fs
  | fs, p :: rest =>
    if fs.exists p then hardlink_loop src fs rest
    else
      match create_hard_link fs src p with
      | .threw fs1 => .threw fs1
      | .returned fs1 => hardlink_loop src fs1 rest

/-- Model of `hardlink_first_to_all` (lines 82-92). -/
def hardlink_first_to_all (fs : FS) (paths : List Path) : Outcome :=
  if paths.length < 2 then .returned fs
  else
    match paths with
    | [] => .returned fs
    | src :: rest =>
      if !is_regular_file fs src then .returned fs
      else hardlink_loop src fs rest

/-- The body of the loop of `replace_copies_by_hardlinks` (lines 104-105) for
one subgroup: `delete_all_except_first(copies)`, then
`hardlink_first_to_all(copies)`.  (The lines printed before are console output
and leave the file system alone.) -/
def convert (fs : FS) (copies : List Path) : Outcome :=
  match delete_all_except_first fs copies with
  | .threw fs1 => .threw fs1
  | .returned fs1 => hardlink_first_to_all fs1 copies

/-- The range-`for` of `replace_copies_by_hardlinks` over the subgroups. -/
def convert_each : FS → List (List Path) → Outcome
  | fs, [] => .returned fs
  | fs, copies :: rest =>
    match convert fs copies with
    | .threw fs1 => .threw fs1
    | .returned fs1 => convert_each fs1 rest

/-- Model of `replace_copies_by_hardlinks` (lines 99-107).  The subgroups are
computed once, by `group_identical_files(files)` on the file system as it is
on entry, before the first of them is converted. -/
def replace_copies_by_hardlinks (fs : FS) (files : List Path) : Outcome :=
  convert_each fs (group_identical_files (identical_file fs) files)

/-- The `find_if_not` of `contains_non_hardlinks` (lines 113-116) with its
predicate `hard_link_count(file) == file_num`: `some true` when an entry
fails the predicate, `some false` when the end of the list is reached, and
`none` when `hard_link_count` throws at the entry under test. -/
def find_if_not_loop (hard_link_count : Path → Option Nat) (file_num : Nat) :
    List Path → Option Bool
  | [] => some false
  | file :: rest =>
    match hard_link_count file with
    | none => none
    | some c => if c = file_num then find_if_not_loop hard_link_count file_num rest
                else some true

/-- Model of `contains_non_hardlinks` (lines 109-117); the link-count query is
a parameter, `none` being the `filesystem_error` it throws. -/
def contains_non_hardlinks (hard_link_count : Path → Option Nat) (files : List Path) :
    Option Bool :=
  let file_num := files.length
  find_if_not_loop hard_link_count file_num files

/-- The answer of the Already-Linked Detector of the specification: the
negation of `contains_non_hardlinks`. -/
def all_mutually_linked (hard_link_count : Path → Option Nat) (files : List Path) :
    Option Bool :=
  (contains_non_hardlinks hard_link_count files).map (fun b => !b)

/-- Model of `path::filename()`: what follows the last `/`. -/
def filename (p : Path) : String :=
  String.mk ((p.data.reverse.takeWhile (fun c => c != '/')).reverse)

/-- Whether the name `q` lies below the directory `root`: `q` continues
`root` after a directory separator, which `root` may already end with (as the
root directory `/` does). -/
def below (root q : Path) : Bool :=
  let dir := if root.data.getLast? = some '/' then root.data else root.data ++ ['/']
  dir.isPrefixOf q.data && decide (dir.length < q.data.length)

/-- The existing names below `root`, in the order of `names`. -/
def directory_entries (fs : FS) (root : Path) : List Path :=
  fs.names.filter (fun q => below root q && fs.exists q)

/-- Model of `recursive_directory_iterator{ root }` with the default options:
it reports the existing names below `root`, in the order of `names`; `none`
stands for the `filesystem_error` it throws when `root` or a directory below
it cannot be entered. -/
def recursive_directory_iterator (fs : FS) (root : Path) : Option (List Path) :=
  if fs.unreadable root
      || (directory_entries fs root).any (fun d => is_directory fs d && fs.unreadable d)
  then none
  else some (directory_entries fs root)

/-- The order of `std::string` keys in a `std::map`: lexicographic on the
character values. -/
def key_lt : List Nat → List Nat → Bool
  | [], [] => false
  | [], _ :: _ => true
  | _ :: _, [] => false
  | a :: as, b :: bs => a < b || (a == b && key_lt as bs)

/-- Model of `filename_groups[key].push_back(p)` on a `std::map`, kept as a
list of entries sorted by key. -/
def map_push_back : List (String × List Path) → String → Path → List (String × List Path)
  | [], key, p => [(key, [p])]
  | (k, group) :: m, key, p =>
    if key = k then (k, group ++ [p]) :: m
    else if key_lt (key.data.map Char.toNat) (k.data.map Char.toNat) then
      (key, [p]) :: (k, group) :: m
    else (k, group) :: map_push_back m key p

/-- Model of `find_filename_groups` (lines 20-34); `none` stands for the
`filesystem_error` of the traversal, which leaves the function before anything
is returned. -/
def find_filename_groups (fs : FS) (root : Path) : Option (List (List Path)) :=
  if !is_directory fs root then some []
  else
    match recursive_directory_iterator fs root with
    | none => none
    | some entries =>
      let filename_groups :=
        entries.foldl
          (fun m p => if !is_regular_file fs p then m else map_push_back m (filename p) p) []
      some (filename_groups.map Prod.snd)

/-- The range-`for` of `main` (lines 126-127) over the lazily filtered view:
the two filters are evaluated on a group when the iteration reaches it, that
is after the groups before it have been processed. -/
def main_loop : FS → List (List Path) → Outcome
  | fs, [] => .returned fs
  | fs, group :: groups =>
    if group.length > 1 then
      match contains_non_hardlinks (hard_link_count fs) group with
      | none => .threw fs
      | some false => main_loop fs groups
      | some true =>
        match replace_copies_by_hardlinks fs group with
        | .threw fs1 => .threw fs1
        | .returned fs1 => main_loop fs1 groups
    else main_loop fs groups

/-- Model of `main` (lines 119-128); `current_path` is the working directory.
An error of the traversal ends the program before any group is processed. -/
def main (fs : FS) (current_path : Path) : Outcome :=
  match find_filename_groups fs current_path with
  | none => .threw fs
  | some filename_groups => main_loop fs filename_groups

/-! ## Vocabulary of the statements -/

/-- The relation `identical_file` restricted to `paths` is reflexive,
symmetric and transitive. -/
def EquivOn (ident : Path → Path → Bool) (paths : List Path) : Prop :=
  (∀ x ∈ paths, ident x x = true) ∧
  (∀ x ∈ paths, ∀ y ∈ paths, ident x y = true → ident y x = true) ∧
  (∀ x ∈ paths, ∀ y ∈ paths, ∀ z ∈ paths,
    ident x y = true → ident y z = true → ident x z = true)

instance (ident : Path → Path → Bool) (paths : List Path) :
    Decidable (EquivOn ident paths) := by
  unfold EquivOn; infer_instance

/-- The bytes of the regular file at a name, `none` when the name holds no
regular file. -/
def file_bytes (fs : FS) (p : Path) : Option (List Nat) :=
  match fs.lookup p with
  | some (.regular bs) => some bs
  | _ => none

/-- A file system built from a list of entries: entry `k` is bound to an
inode of its own (number `k`, one link) holding the node given; every call is
permitted and every file can be read. -/
def mkfs (entries : List (Path × Node)) : FS where
  names := entries.map Prod.fst
  dirent := fun p =>
    let k := (entries.map Prod.fst).indexOf p
    if k < entries.length then some k else none
  node := fun i => (entries.map Prod.snd).get? i
  nlink := fun _ => 1
  unreadable := fun _ => false
  deny_remove := fun _ => false
  deny_link := fun _ => false
  journal := []

/-! ## Vocabulary of the idempotence statement -/

/-- The second state differs from the first at most in the bindings of names
and in link counts, and in a way no read of the program can tell: the same
names, inodes and permissions, and every name resolves to an equal node. -/
def Frame (fs fs' : FS) : Prop :=
  fs'.names = fs.names ∧ fs'.node = fs.node ∧ fs'.unreadable = fs.unreadable ∧
  fs'.deny_remove = fs.deny_remove ∧ fs'.deny_link = fs.deny_link ∧
  (∀ q, fs'.lookup q = fs.lookup q) ∧ (∀ q, fs'.exists q = fs.exists q)

/-- The names of `l` are distinct regular files listed in `names`. -/
def Static (fs : FS) (l : List Path) : Prop :=
  l.Nodup ∧ ∀ p ∈ l, p ∈ fs.names ∧ is_regular_file fs p = true

/-- The names of `l` are independent files: bound to different inodes, each
with one link. -/
def FreshAll (fs : FS) (l : List Path) : Prop :=
  l.Pairwise (fun p q => fs.dirent p ≠ fs.dirent q) ∧ ∀ p ∈ l, hard_link_count fs p = some 1

/-- The regular files among the names below `root`. -/
def tree_files (fs : FS) (root : Path) : List Path :=
  (directory_entries fs root).filter (is_regular_file fs)

/-- A tree of independent regular files: the names of the volume are listed
once, and the regular files below `root` are bound to different inodes with
one link each. -/
def IndependentTree (fs : FS) (root : Path) : Prop :=
  fs.names.Nodup ∧
  (tree_files fs root).Pairwise (fun p q => fs.dirent p ≠ fs.dirent q) ∧
  ∀ p ∈ tree_files fs root, hard_link_count fs p = some 1

instance (fs : FS) (root : Path) : Decidable (IndependentTree fs root) := by
  unfold IndependentTree; infer_instance

/-- The first example scenario of the specification: three copies named
`report.txt` and one file `summary.txt`, below the directory `.`. -/
def fs_report : FS :=
  mkfs [(".", .directory), ("./a/report.txt", .regular [7, 7]),
    ("./b/report.txt", .regular [7, 7]), ("./c/report.txt", .regular [7, 7]),
    ("./d/summary.txt", .regular [1])]

/-- A regular file `b/f` next to an entry `a/f` that is no regular file. -/
def fs_survivor_not_regular : FS :=
  mkfs [("./a/f", .other), ("./b/f", .regular [1, 2])]

/-- Four copies of one file; a hard link cannot be created at `c/f`. -/
def fs_link_refused : FS :=
  { mkfs [("./a/f", .regular [5]), ("./b/f", .regular [5]), ("./c/f", .regular [5]),
      ("./d/f", .regular [5])] with
    deny_link := fun p => decide (p = "./c/f") }

/-- Four files of one name, two of them copies (`a/f`, `c/f`) and two others
also copies of each other (`b/f`, `d/f`). -/
def fs_two_pairs : FS :=
  mkfs [("./a/f", .regular [1, 2]), ("./b/f", .regular [3]), ("./c/f", .regular [1, 2]),
    ("./d/f", .regular [3])]

/-- Two files of one name and different content (the second example scenario
of the specification). -/
def fs_xlog : FS :=
  mkfs [("./a/x.log", .regular [1, 2]), ("./b/x.log", .regular [1, 3])]

/-- Two copies below the root directory `/`. -/
def fs_rootdir : FS :=
  mkfs [("/", .directory), ("/a", .directory), ("/b", .directory),
    ("/a/f", .regular [4]), ("/b/f", .regular [4])]

/-- Two copies next to a directory that cannot be entered. -/
def fs_locked : FS :=
  { mkfs [(".", .directory), ("./a/f", .regular [4]), ("./b/f", .regular [4]),
      ("./locked", .directory)] with
    unreadable := fun p => decide (p = "./locked") }

theorem extract_loop_eq (ident : Path → Path → Bool) (pivot : Path) (files : List Path) :
    extract_loop ident pivot files
      = (files.filter (ident pivot), files.filter (fun f => !ident pivot f)) := by
  induction files with
  | nil => rfl
  | cons f files ih =>
    simp only [extract_loop, ih, List.filter_cons]
    cases ident pivot f <;> simp

theorem extract_cons (ident : Path → Path → Bool) (p : Path) (files : List Path) :
    extract_next_identical_file_group ident (p :: files)
      = (p :: files.filter (ident p), files.filter (fun f => !ident p f)) := by
  simp [extract_next_identical_file_group, extract_loop_eq]

/-- One turn of the `while` loop on a list with at least two entries. -/
theorem group_loop_cons (ident : Path → Path → Bool) (fuel : Nat) (p q : Path) (t : List Path) :
    group_loop ident (fuel + 1) (p :: q :: t)
      = if (q :: t).filter (ident p) ≠ [] then
          (p :: (q :: t).filter (ident p))
            :: group_loop ident fuel ((q :: t).filter (fun f => !ident p f))
        else group_loop ident fuel ((q :: t).filter (fun f => !ident p f)) := by
  rw [group_loop]
  simp only [extract_cons]
  have h1 : (p :: q :: t).length > 1 := by simp
  rw [if_pos h1]
  by_cases h : (q :: t).filter (ident p) = []
  · rw [h]; simp
  · rw [if_pos h, if_pos]
    cases hh : (q :: t).filter (ident p) with
    | nil => exact absurd hh h
    | cons a l => simp

theorem group_loop_short (ident : Path → Path → Bool) (fuel : Nat) (paths : List Path)
    (h : paths.length ≤ 1) : group_loop ident fuel paths = [] := by
  cases fuel with
  | zero => rfl
  | succ n => rw [group_loop, if_neg (by omega)]

/-- The bound on the iterations is never reached: any two bounds that are at
least the length of the list give the same result. -/
theorem group_loop_fuel (ident : Path → Path → Bool) :
    ∀ (n m : Nat) (paths : List Path), paths.length ≤ n → paths.length ≤ m →
      group_loop ident n paths = group_loop ident m paths := by
  intro n
  induction n with
  | zero =>
    intro m paths hn _
    rw [group_loop_short ident 0 paths (by omega), group_loop_short ident m paths (by omega)]
  | succ n ih =>
    intro m paths hn hm
    match paths, hn, hm with
    | [], _, _ => rw [group_loop_short ident _ [] (by simp), group_loop_short ident m [] (by simp)]
    | [a], _, _ =>
      rw [group_loop_short ident _ [a] (by simp), group_loop_short ident m [a] (by simp)]
    | p :: q :: t, hn, hm =>
      obtain ⟨m, rfl⟩ : ∃ k, m = k + 1 := ⟨m - 1, by simp at hm; omega⟩
      have hlen : ((q :: t).filter (fun f => !ident p f)).length ≤ (q :: t).length :=
        List.length_filter_le _ _
      simp only [List.length_cons] at hn hm hlen
      rw [group_loop_cons, group_loop_cons,
        ih m _ (by omega) (by omega)]

theorem group_identical_files_short (ident : Path → Path → Bool) (paths : List Path)
    (h : paths.length ≤ 1) : group_identical_files ident paths = [] :=
  group_loop_short ident _ paths h

theorem group_identical_files_cons (ident : Path → Path → Bool) (p q : Path) (t : List Path) :
    group_identical_files ident (p :: q :: t)
      = if (q :: t).filter (ident p) ≠ [] then
          (p :: (q :: t).filter (ident p))
            :: group_identical_files ident ((q :: t).filter (fun f => !ident p f))
        else group_identical_files ident ((q :: t).filter (fun f => !ident p f)) := by
  have hlen : ((q :: t).filter (fun f => !ident p f)).length ≤ (q :: t).length :=
    List.length_filter_le _ _
  simp only [List.length_cons] at hlen
  unfold group_identical_files
  rw [List.length_cons, group_loop_cons,
    group_loop_fuel ident _ ((q :: t).filter (fun f => !ident p f)).length _ (by simp; omega) (le_refl _)]

/-- Induction along the iterations of `group_identical_files`. -/
theorem group_induction (ident : Path → Path → Bool)
    (P : List Path → List (List Path) → Prop)
    (short : ∀ paths, paths.length ≤ 1 → P paths [])
    (keep : ∀ p q t, (q :: t).filter (ident p) ≠ [] →
      P ((q :: t).filter (fun f => !ident p f))
        (group_identical_files ident ((q :: t).filter (fun f => !ident p f))) →
      P (p :: q :: t) ((p :: (q :: t).filter (ident p))
        :: group_identical_files ident ((q :: t).filter (fun f => !ident p f))))
    (drop : ∀ p q t, (q :: t).filter (ident p) = [] →
      P ((q :: t).filter (fun f => !ident p f))
        (group_identical_files ident ((q :: t).filter (fun f => !ident p f))) →
      P (p :: q :: t) (group_identical_files ident ((q :: t).filter (fun f => !ident p f)))) :
    ∀ paths, P paths (group_identical_files ident paths) := by
  have main : ∀ n (paths : List Path), paths.length = n →
      P paths (group_identical_files ident paths) := by
    intro n
    induction n using Nat.strong_induction_on with
    | _ n ih =>
      intro paths h
      match paths, h with
      | [], _ => rw [group_identical_files_short ident [] (by simp)]; exact short [] (by simp)
      | [a], _ =>
        rw [group_identical_files_short ident [a] (by simp)]; exact short [a] (by simp)
      | p :: q :: t, h =>
        have hlen : ((q :: t).filter (fun f => !ident p f)).length ≤ (q :: t).length :=
          List.length_filter_le _ _
        simp only [List.length_cons] at hlen h
        have rec := ih _ (by omega) ((q :: t).filter (fun f => !ident p f)) rfl
        rw [group_identical_files_cons]
        by_cases hne : (q :: t).filter (ident p) = []
        · rw [if_neg (by simpa using hne)]; exact drop p q t hne rec
        · rw [if_pos hne]; exact keep p q t hne rec
  exact fun paths => main _ paths rfl

theorem EquivOn.subset {ident : Path → Path → Bool} {l l' : List Path}
    (h : EquivOn ident l) (hs : ∀ x ∈ l', x ∈ l) : EquivOn ident l' :=
  ⟨fun x hx => h.1 x (hs x hx),
   fun x hx y hy => h.2.1 x (hs x hx) y (hs y hy),
   fun x hx y hy z hz => h.2.2 x (hs x hx) y (hs y hy) z (hs z hz)⟩

/-- Shape of a returned subgroup: its head stands in the input before the
rest of it. -/
theorem group_shape (ident : Path → Path → Bool) (paths : List Path) :
    ∀ g ∈ group_identical_files ident paths,
      ∃ p ms pre post, g = p :: ms ∧ ms ≠ [] ∧ paths = pre ++ p :: post ∧ ms.Sublist post := by
  refine group_induction ident
    (fun paths R => ∀ g ∈ R, ∃ p ms pre post,
      g = p :: ms ∧ ms ≠ [] ∧ paths = pre ++ p :: post ∧ ms.Sublist post) ?_ ?_ ?_ paths
  · intro paths _ g hg
    simp at hg
  · intro p q t hne ih g hg
    rcases List.mem_cons.1 hg with rfl | hg
    · exact ⟨p, _, [], q :: t, rfl, hne, rfl, List.filter_sublist _⟩
    · obtain ⟨p', ms, pre, post, rfl, hms, hrest, hsub⟩ := ih g hg
      have hs : (pre ++ p' :: post).Sublist (q :: t) := hrest ▸ List.filter_sublist _
      obtain ⟨r1, r2, hr, _, h2⟩ := List.append_sublist_iff.1 hs
      obtain ⟨r3, r4, hr', hmem, h4⟩ := List.cons_sublist_iff.1 h2
      obtain ⟨a, b, rfl⟩ := List.append_of_mem hmem
      refine ⟨p', ms, p :: (r1 ++ a), b ++ r4, rfl, hms, ?_, ?_⟩
      · rw [hr, hr']; simp
      · exact hsub.trans (h4.trans (List.sublist_append_right _ _))
  · intro p q t _ ih g hg
    obtain ⟨p', ms, pre, post, rfl, hms, hrest, hsub⟩ := ih g hg
    have hs : (pre ++ p' :: post).Sublist (q :: t) := hrest ▸ List.filter_sublist _
    obtain ⟨r1, r2, hr, _, h2⟩ := List.append_sublist_iff.1 hs
    obtain ⟨r3, r4, hr', hmem, h4⟩ := List.cons_sublist_iff.1 h2
    obtain ⟨a, b, rfl⟩ := List.append_of_mem hmem
    refine ⟨p', ms, p :: (r1 ++ a), b ++ r4, rfl, hms, ?_, ?_⟩
    · rw [hr, hr']; simp
    · exact hsub.trans (h4.trans (List.sublist_append_right _ _))

theorem group_sublist (ident : Path → Path → Bool) (paths : List Path) :
    ∀ g ∈ group_identical_files ident paths, g.Sublist paths := by
  intro g hg
  obtain ⟨p, ms, pre, post, rfl, _, rfl, hsub⟩ := group_shape ident paths g hg
  exact (hsub.cons₂ p).trans (List.sublist_append_right _ _)

theorem group_mem (ident : Path → Path → Bool) (paths : List Path) :
    ∀ g ∈ group_identical_files ident paths, ∀ x ∈ g, x ∈ paths :=
  fun g hg _ hx => (group_sublist ident paths g hg).subset hx

/-- The result depends on `identical_file` through its values on the input only. -/
theorem group_congr (ident ident' : Path → Path → Bool) (paths : List Path)
    (h : ∀ x ∈ paths, ∀ y ∈ paths, ident x y = ident' x y) :
    group_identical_files ident' paths = group_identical_files ident paths := by
  revert h
  refine group_induction ident
    (fun paths R => (∀ x ∈ paths, ∀ y ∈ paths, ident x y = ident' x y) →
      group_identical_files ident' paths = R) ?_ ?_ ?_ paths
  · intro paths hl _
    exact group_identical_files_short ident' paths hl
  · intro p q t hne ih h
    have e1 : (q :: t).filter (ident' p) = (q :: t).filter (ident p) :=
      List.filter_congr (fun y hy => (h p (by simp) y (List.mem_cons_of_mem _ hy)).symm)
    have e2 : (q :: t).filter (fun f => !ident' p f) = (q :: t).filter (fun f => !ident p f) :=
      List.filter_congr (fun y hy => by rw [h p (by simp) y (List.mem_cons_of_mem _ hy)])
    rw [group_identical_files_cons, e1, e2, if_pos hne, ih]
    intro x hx y hy
    exact h x (List.mem_cons_of_mem _ (List.mem_filter.1 hx).1)
      y (List.mem_cons_of_mem _ (List.mem_filter.1 hy).1)
  · intro p q t hne ih h
    have e1 : (q :: t).filter (ident' p) = (q :: t).filter (ident p) :=
      List.filter_congr (fun y hy => (h p (by simp) y (List.mem_cons_of_mem _ hy)).symm)
    have e2 : (q :: t).filter (fun f => !ident' p f) = (q :: t).filter (fun f => !ident p f) :=
      List.filter_congr (fun y hy => by rw [h p (by simp) y (List.mem_cons_of_mem _ hy)])
    rw [group_identical_files_cons, e1, e2, if_neg (by simpa using hne), ih]
    intro x hx y hy
    exact h x (List.mem_cons_of_mem _ (List.mem_filter.1 hx).1)
      y (List.mem_cons_of_mem _ (List.mem_filter.1 hy).1)

theorem group_join_subperm (ident : Path → Path → Bool) (paths : List Path) :
    (group_identical_files ident paths).flatten.Subperm paths := by
  refine group_induction ident (fun paths R => R.flatten.Subperm paths) ?_ ?_ ?_ paths
  · intro paths _
    exact List.nil_subperm
  · intro p q t _ ih
    have hp : ((q :: t).filter (ident p) ++ (q :: t).filter (fun f => !ident p f)).Perm (q :: t) :=
      List.filter_append_perm (ident p) (q :: t)
    rw [List.flatten_cons, List.cons_append]
    refine (List.subperm_cons p).2 ?_
    exact ((List.subperm_append_left _).2 ih).trans hp.subperm
  · intro p q t _ ih
    exact ih.trans (((List.filter_sublist _).subperm).trans (List.sublist_cons_self p _).subperm)

/-- Under an equivalence, the entries equated with a member of the pivot's
class are the pivot's class. -/
theorem class_of_pivot {ident : Path → Path → Bool} {p : Path} {l : List Path}
    (h : EquivOn ident (p :: l)) {x : Path} (hx : x ∈ p :: l.filter (ident p)) :
    (p :: l).filter (ident x) = p :: l.filter (ident p) := by
  have hp : p ∈ p :: l := List.mem_cons_self _ _
  have hxl : x ∈ p :: l := by
    rcases List.mem_cons.1 hx with rfl | hx
    · exact hp
    · exact List.mem_cons_of_mem _ (List.mem_filter.1 hx).1
  have hpx : ident p x = true := by
    rcases List.mem_cons.1 hx with rfl | hx
    · exact h.1 _ hp
    · exact (List.mem_filter.1 hx).2
  have hxp : ident x p = true := h.2.1 p hp x hxl hpx
  rw [List.filter_cons, if_pos hxp]
  congr 1
  refine List.filter_congr (fun y hy => ?_)
  have hyl : y ∈ p :: l := List.mem_cons_of_mem _ hy
  cases hpy : ident p y with
  | true => exact h.2.2 x hxl p hp y hyl hxp hpy
  | false =>
    cases hxy : ident x y with
    | false => rfl
    | true => rw [h.2.2 p hp x hxl y hyl hpx hxy] at hpy; exact absurd hpy (by simp)

/-- Under an equivalence, an entry the pivot left behind has its whole class
among the entries left behind. -/
theorem class_of_rest {ident : Path → Path → Bool} {p : Path} {l : List Path}
    (h : EquivOn ident (p :: l)) {y : Path} (hy : y ∈ l.filter (fun f => !ident p f)) :
    (p :: l).filter (ident y) = (l.filter (fun f => !ident p f)).filter (ident y) := by
  have hp : p ∈ p :: l := List.mem_cons_self _ _
  have hyl : y ∈ p :: l := List.mem_cons_of_mem _ (List.mem_filter.1 hy).1
  have hpy : ident p y = false := by simpa using (List.mem_filter.1 hy).2
  have hyp : ident y p = false := by
    cases e : ident y p with
    | false => rfl
    | true => rw [h.2.1 y hyl p hp e] at hpy; exact absurd hpy (by simp)
  rw [List.filter_cons, if_neg (by simp [hyp]), List.filter_filter]
  refine List.filter_congr (fun z hz => ?_)
  have hzl : z ∈ p :: l := List.mem_cons_of_mem _ hz
  cases hyz : ident y z with
  | false => simp
  | true =>
    cases hpz : ident p z with
    | false => simp
    | true =>
      have hzy : ident z y = true := h.2.1 y hyl z hzl hyz
      rw [h.2.2 p hp z hzl y hyl hpz hzy] at hpy
      exact absurd hpy (by simp)

theorem EquivOn.rest {ident : Path → Path → Bool} {p : Path} {l : List Path}
    (h : EquivOn ident (p :: l)) : EquivOn ident (l.filter (fun f => !ident p f)) :=
  h.subset (fun _ hx => List.mem_cons_of_mem _ (List.mem_filter.1 hx).1)

/-- Under an equivalence every returned subgroup is a whole class of the
input, in the order of the input. -/
theorem group_class (ident : Path → Path → Bool) (paths : List Path)
    (h : EquivOn ident paths) :
    ∀ g ∈ group_identical_files ident paths, ∀ x ∈ g, g = paths.filter (ident x) := by
  revert h
  refine group_induction ident
    (fun paths R => EquivOn ident paths → ∀ g ∈ R, ∀ x ∈ g, g = paths.filter (ident x))
    ?_ ?_ ?_ paths
  · intro paths _ _ g hg
    simp at hg
  · intro p q t _ ih h g hg x hx
    rcases List.mem_cons.1 hg with rfl | hg
    · exact (class_of_pivot h hx).symm
    · have hxr := group_mem ident _ g hg x hx
      rw [class_of_rest h hxr]
      exact ih h.rest g hg x hx
  · intro p q t _ ih h g hg x hx
    have hxr := group_mem ident _ g hg x hx
    rw [class_of_rest h hxr]
    exact ih h.rest g hg x hx

/-- Under an equivalence no member of a returned subgroup is equated with a
member of another returned subgroup. -/
theorem group_pairwise (ident : Path → Path → Bool) (paths : List Path)
    (h : EquivOn ident paths) :
    (group_identical_files ident paths).Pairwise
      (fun g g' => ∀ x ∈ g, ∀ y ∈ g', ident x y = false ∧ ident y x = false) := by
  revert h
  refine group_induction ident
    (fun paths R => EquivOn ident paths → R.Pairwise
      (fun g g' => ∀ x ∈ g, ∀ y ∈ g', ident x y = false ∧ ident y x = false))
    ?_ ?_ ?_ paths
  · intro paths _ _
    exact List.Pairwise.nil
  · intro p q t _ ih h
    refine List.Pairwise.cons ?_ (ih h.rest)
    intro g' hg' x hx y hy
    have hyr := group_mem ident _ g' hg' y hy
    have hcy := class_of_rest h hyr
    have hcx := class_of_pivot h hx
    have hp : p ∈ p :: q :: t := List.mem_cons_self _ _
    have hxl : x ∈ p :: q :: t := by
      rcases List.mem_cons.1 hx with rfl | hx
      · exact hp
      · exact List.mem_cons_of_mem _ (List.mem_filter.1 hx).1
    have hyl : y ∈ p :: q :: t := List.mem_cons_of_mem _ (List.mem_filter.1 hyr).1
    have hnx : ident x y = false := by
      cases e : ident x y with
      | false => rfl
      | true =>
        have : y ∈ (p :: q :: t).filter (ident x) := List.mem_filter.2 ⟨hyl, e⟩
        rw [hcx] at this
        rcases List.mem_cons.1 this with rfl | hm
        · have := (List.mem_filter.1 hyr).2
          rw [h.1 _ hp] at this; exact absurd this (by simp)
        · have h1 := (List.mem_filter.1 hyr).2
          rw [(List.mem_filter.1 hm).2] at h1; exact absurd h1 (by simp)
    refine ⟨hnx, ?_⟩
    cases e : ident y x with
    | false => rfl
    | true => rw [h.2.1 y hyl x hxl e] at hnx; exact absurd hnx (by simp)
  · intro p q t _ ih h
    exact ih h.rest


/-- Under an equivalence the entries that reach a returned subgroup are the
entries of the input that have a partner. -/
theorem group_flatten_perm (ident : Path → Path → Bool) (paths : List Path)
    (h : EquivOn ident paths) :
    (group_identical_files ident paths).flatten.Perm
      (paths.filter (fun x => decide (2 ≤ paths.countP (ident x)))) := by
  revert h
  refine group_induction ident
    (fun paths R => EquivOn ident paths →
      R.flatten.Perm (paths.filter (fun x => decide (2 ≤ paths.countP (ident x)))))
    ?_ ?_ ?_ paths
  · intro paths hl _
    match paths, hl with
    | [], _ => simp
    | [a], _ =>
      have : List.countP (ident a) [a] ≤ 1 := List.countP_le_length (ident a)
      simp only [List.flatten_nil, List.filter_cons, List.filter_nil]
      rw [if_neg (by simp; omega)]
  · intro p q t hne ih h
    have hsplit := (List.filter_append_perm (ident p) (q :: t)).filter
      (fun x => decide (2 ≤ (p :: q :: t).countP (ident x)))
    rw [List.filter_append] at hsplit
    have e1 : ((q :: t).filter (ident p)).filter
        (fun x => decide (2 ≤ (p :: q :: t).countP (ident x))) = (q :: t).filter (ident p) := by
      refine List.filter_eq_self.2 (fun x hx => ?_)
      have hc := class_of_pivot h (List.mem_cons_of_mem p hx)
      have hl : 2 ≤ ((p :: q :: t).filter (ident x)).length := by
        rw [hc]
        cases hh : (q :: t).filter (ident p) with
        | nil => exact absurd hh hne
        | cons a l => simp
      rw [List.countP_eq_length_filter]
      simpa using hl
    have e2 : ((q :: t).filter (fun f => !ident p f)).filter
        (fun x => decide (2 ≤ (p :: q :: t).countP (ident x)))
        = ((q :: t).filter (fun f => !ident p f)).filter
          (fun x => decide (2 ≤ ((q :: t).filter (fun f => !ident p f)).countP (ident x))) := by
      refine List.filter_congr (fun y hy => ?_)
      rw [List.countP_eq_length_filter, List.countP_eq_length_filter, class_of_rest h hy]
    have e3 : decide (2 ≤ (p :: q :: t).countP (ident p)) = true := by
      have hc := class_of_pivot h (List.mem_cons_self p _)
      rw [List.countP_eq_length_filter, hc]
      cases hh : (q :: t).filter (ident p) with
      | nil => exact absurd hh hne
      | cons a l => simp
    have e4 : (p :: q :: t).filter (fun x => decide (2 ≤ (p :: q :: t).countP (ident x)))
        = p :: (q :: t).filter (fun x => decide (2 ≤ (p :: q :: t).countP (ident x))) :=
      List.filter_cons_of_pos e3
    rw [e1, e2] at hsplit
    rw [List.flatten_cons, List.cons_append, e4]
    exact List.Perm.cons p (((List.Perm.append_left _ (ih h.rest)).trans hsplit))
  · intro p q t hnil ih h
    have hsplit := (List.filter_append_perm (ident p) (q :: t)).filter
      (fun x => decide (2 ≤ (p :: q :: t).countP (ident x)))
    rw [List.filter_append, hnil] at hsplit
    have e2 : ((q :: t).filter (fun f => !ident p f)).filter
        (fun x => decide (2 ≤ (p :: q :: t).countP (ident x)))
        = ((q :: t).filter (fun f => !ident p f)).filter
          (fun x => decide (2 ≤ ((q :: t).filter (fun f => !ident p f)).countP (ident x))) := by
      refine List.filter_congr (fun y hy => ?_)
      rw [List.countP_eq_length_filter, List.countP_eq_length_filter, class_of_rest h hy]
    have e3 : ¬ decide (2 ≤ (p :: q :: t).countP (ident p)) = true := by
      have hc := class_of_pivot h (List.mem_cons_self p _)
      rw [List.countP_eq_length_filter, hc, hnil]
      simp
    have e4 : (p :: q :: t).filter (fun x => decide (2 ≤ (p :: q :: t).countP (ident x)))
        = (q :: t).filter (fun x => decide (2 ≤ (p :: q :: t).countP (ident x))) :=
      List.filter_cons_of_neg e3
    rw [e2, List.filter_nil, List.nil_append] at hsplit
    rw [e4]
    exact (ih h.rest).trans hsplit

/-- When no entry is equated with a later one, nothing is returned. -/
theorem group_all_distinct (ident : Path → Path → Bool) (paths : List Path)
    (h : paths.Pairwise (fun x y => ident x y = false)) :
    group_identical_files ident paths = [] := by
  revert h
  refine group_induction ident
    (fun paths R => paths.Pairwise (fun x y => ident x y = false) → R = []) ?_ ?_ ?_ paths
  · intro _ _ _; rfl
  · intro p q t hne _ h
    exfalso
    apply hne
    rw [List.filter_eq_nil_iff]
    intro y hy
    rw [(List.pairwise_cons.1 h).1 y hy]; simp
  · intro p q t _ ih h
    exact ih (((List.pairwise_cons.1 h).2).sublist (List.filter_sublist _))


/-- Every member of a returned subgroup but its head was equated with the head. -/
theorem group_pivot (ident : Path → Path → Bool) (paths : List Path) :
    ∀ g ∈ group_identical_files ident paths,
      ∃ p ms, g = p :: ms ∧ ms ≠ [] ∧ ∀ m ∈ ms, ident p m = true := by
  refine group_induction ident
    (fun _ R => ∀ g ∈ R, ∃ p ms, g = p :: ms ∧ ms ≠ [] ∧ ∀ m ∈ ms, ident p m = true)
    ?_ ?_ ?_ paths
  · intro _ _ g hg
    simp at hg
  · intro p q t hne ih g hg
    rcases List.mem_cons.1 hg with rfl | hg
    · exact ⟨p, _, rfl, hne, fun m hm => (List.mem_filter.1 hm).2⟩
    · exact ih g hg
  · intro p q t _ ih g hg
    exact ih g hg

/-! ## The equality oracle -/

theorem std_equal_iff : ∀ (a b : List Nat), a.length = b.length →
    (std_equal a b = true ↔ a = b)
  | [], [], _ => by simp [std_equal]
  | [], _ :: _, h => by simp at h
  | _ :: _, [], h => by simp at h
  | x :: a, y :: b, h => by
    have := std_equal_iff a b (by simpa using h)
    simp [std_equal, this]

theorem is_regular_file_iff (fs : FS) (p : Path) :
    is_regular_file fs p = true ↔ ∃ bs, file_bytes fs p = some bs := by
  unfold is_regular_file file_bytes
  split <;> simp

/-- What `identical_file` computes, stream failures included. -/
theorem identical_file_iff (fs : FS) (f1 f2 : Path) :
    identical_file fs f1 f2 = true ↔
      ∃ bs, file_bytes fs f1 = some bs ∧ file_bytes fs f2 = some bs ∧
        fs.unreadable f1 = false ∧ fs.unreadable f2 = false := by
  unfold identical_file is_regular_file file_bytes ifstream.open ifstream.tellg
  cases h1 : fs.lookup f1 with
  | none => simp
  | some n1 =>
    cases h2 : fs.lookup f2 with
    | none => cases n1 <;> simp
    | some n2 =>
      cases n1 with
      | directory => simp
      | other => simp
      | regular b1 =>
        cases n2 with
        | directory => simp
        | other => simp
        | regular b2 =>
          cases hu1 : fs.unreadable f1 <;> cases hu2 : fs.unreadable f2 <;> simp
          constructor
          · rintro ⟨hl, he⟩
            exact ((std_equal_iff b1 b2 hl).1 he).symm
          · intro hb
            subst hb
            exact ⟨rfl, (std_equal_iff _ _ rfl).2 rfl⟩


/-- On regular files that can be read, `identical_file` is an equivalence
relation. -/
theorem identical_file_equivOn (fs : FS) (paths : List Path)
    (h : ∀ p ∈ paths, is_regular_file fs p = true ∧ fs.unreadable p = false) :
    EquivOn (identical_file fs) paths := by
  refine ⟨?_, ?_, ?_⟩
  · intro x hx
    obtain ⟨bs, hb⟩ := (is_regular_file_iff fs x).1 (h x hx).1
    exact (identical_file_iff fs x x).2 ⟨bs, hb, hb, (h x hx).2, (h x hx).2⟩
  · intro x _ y _ hxy
    obtain ⟨bs, h1, h2, h3, h4⟩ := (identical_file_iff fs x y).1 hxy
    exact (identical_file_iff fs y x).2 ⟨bs, h2, h1, h4, h3⟩
  · intro x _ y _ z _ hxy hyz
    obtain ⟨bs, h1, h2, h3, _⟩ := (identical_file_iff fs x y).1 hxy
    obtain ⟨bs', h1', h2', _, h4'⟩ := (identical_file_iff fs y z).1 hyz
    have : bs = bs' := Option.some.inj (h2.symm.trans h1')
    exact (identical_file_iff fs x z).2 ⟨bs, h1, this ▸ h2', h3, h4'⟩

/-! ## Claims on the identity partitioner -/

/-- C1: when `identical_file` is an equivalence relation on the input paths,
any two members of one returned subgroup are identical, and no member of a
returned subgroup is identical to a member of another returned subgroup. -/
theorem group_identical_files_sound (ident : Path → Path → Bool) (paths : List Path)
    (h : EquivOn ident paths) :
    (∀ g ∈ group_identical_files ident paths, ∀ x ∈ g, ∀ y ∈ g, ident x y = true) ∧
    (group_identical_files ident paths).Pairwise
      (fun g g' => ∀ x ∈ g, ∀ y ∈ g', ident x y = false ∧ ident y x = false) := by
  refine ⟨?_, group_pairwise ident paths h⟩
  intro g hg x hx y hy
  have hc := group_class ident paths h g hg x hx
  rw [hc] at hy
  exact (List.mem_filter.1 hy).2

/-- Witness of C1 on four files forming two pairs of copies. -/
theorem group_identical_files_sound_witness :
    EquivOn (identical_file fs_two_pairs) ["./a/f", "./b/f", "./c/f", "./d/f"] ∧
    ((∀ g ∈ group_identical_files (identical_file fs_two_pairs)
        ["./a/f", "./b/f", "./c/f", "./d/f"],
        ∀ x ∈ g, ∀ y ∈ g, identical_file fs_two_pairs x y = true) ∧
      (group_identical_files (identical_file fs_two_pairs)
        ["./a/f", "./b/f", "./c/f", "./d/f"]).Pairwise
        (fun g g' => ∀ x ∈ g, ∀ y ∈ g',
          identical_file fs_two_pairs x y = false ∧ identical_file fs_two_pairs y x = false)) :=
  ⟨by decide,
    group_identical_files_sound (identical_file fs_two_pairs)
      ["./a/f", "./b/f", "./c/f", "./d/f"] (by decide)⟩

/-- C5, as stated, fails: for two files of different content nothing is
returned, so the returned subgroups do not cover the input. -/
theorem group_identical_files_not_cover :
    ¬ (group_identical_files (identical_file fs_xlog) ["./a/x.log", "./b/x.log"]).flatten.Perm
      ["./a/x.log", "./b/x.log"] := by
  have h : group_identical_files (identical_file fs_xlog) ["./a/x.log", "./b/x.log"] = [] := by
    decide
  rw [h]
  intro hp
  have := hp.length_eq
  simp at this

/-- C5, amended: every input entry reaches at most one returned subgroup: the
concatenation of the returned subgroups is a permutation of a part of the
input. -/
theorem group_identical_files_disjoint (ident : Path → Path → Bool) (paths : List Path) :
    (group_identical_files ident paths).flatten.Subperm paths :=
  group_join_subperm ident paths

/-- C8: a returned subgroup is a subsequence of the input, its first element
stands in the input before its other members, and the result is determined by
the input list and the values of `identical_file` on it. -/
theorem group_identical_files_order (ident : Path → Path → Bool) (paths g : List Path)
    (hg : g ∈ group_identical_files ident paths) :
    g.Sublist paths ∧
    (∃ p ms pre post, g = p :: ms ∧ paths = pre ++ p :: post ∧ ms.Sublist post) ∧
    (∀ ident' : Path → Path → Bool, (∀ x ∈ paths, ∀ y ∈ paths, ident x y = ident' x y) →
      group_identical_files ident' paths = group_identical_files ident paths) := by
  refine ⟨group_sublist ident paths g hg, ?_, fun ident' h => group_congr ident ident' paths h⟩
  obtain ⟨p, ms, pre, post, h1, _, h2, h3⟩ := group_shape ident paths g hg
  exact ⟨p, ms, pre, post, h1, h2, h3⟩

/-- Witness of C8: the subgroup `a/f, c/f` of four files. -/
theorem group_identical_files_order_witness :
    ["./a/f", "./c/f"] ∈ group_identical_files (identical_file fs_two_pairs)
        ["./a/f", "./b/f", "./c/f", "./d/f"] ∧
    List.Sublist ["./a/f", "./c/f"] ["./a/f", "./b/f", "./c/f", "./d/f"] :=
  ⟨by decide,
    (group_identical_files_order (identical_file fs_two_pairs)
      ["./a/f", "./b/f", "./c/f", "./d/f"] ["./a/f", "./c/f"] (by decide)).1⟩

/-- C9: when `identical_file` is an equivalence relation on the input, the
entries that reach a returned subgroup are the entries that have another
identical entry in the input; every returned subgroup has at least two
members and is a whole class of the input; and when no two entries are
identical nothing is returned and `replace_copies_by_hardlinks` returns with
the file system (journal included) as it found it. -/
theorem group_identical_files_complete (fs : FS) (paths : List Path)
    (h : EquivOn (identical_file fs) paths) :
    (group_identical_files (identical_file fs) paths).flatten.Perm
      (paths.filter (fun x => decide (2 ≤ paths.countP (identical_file fs x)))) ∧
    (∀ g ∈ group_identical_files (identical_file fs) paths, 2 ≤ g.length) ∧
    (∀ g ∈ group_identical_files (identical_file fs) paths, ∀ x ∈ g,
      g = paths.filter (identical_file fs x)) ∧
    (paths.Pairwise (fun x y => identical_file fs x y = false) →
      group_identical_files (identical_file fs) paths = [] ∧
      replace_copies_by_hardlinks fs paths = Outcome.returned fs) := by
  refine ⟨group_flatten_perm _ paths h, ?_, group_class _ paths h, ?_⟩
  · intro g hg
    obtain ⟨p, ms, rfl, hms, _⟩ := group_pivot _ paths g hg
    cases ms with
    | nil => exact absurd rfl hms
    | cons a l => simp
  · intro hd
    have h0 := group_all_distinct _ paths hd
    refine ⟨h0, ?_⟩
    unfold replace_copies_by_hardlinks
    rw [h0]
    rfl

/-- Witness of C9 on four files forming two pairs of copies. -/
theorem group_identical_files_complete_witness :
    EquivOn (identical_file fs_two_pairs) ["./a/f", "./b/f", "./c/f", "./d/f"] ∧
    (group_identical_files (identical_file fs_two_pairs)
        ["./a/f", "./b/f", "./c/f", "./d/f"]).flatten.Perm
      (["./a/f", "./b/f", "./c/f", "./d/f"].filter (fun x =>
        decide (2 ≤ ["./a/f", "./b/f", "./c/f", "./d/f"].countP (identical_file fs_two_pairs x)))) ∧
    (∀ g ∈ group_identical_files (identical_file fs_two_pairs)
        ["./a/f", "./b/f", "./c/f", "./d/f"], 2 ≤ g.length) ∧
    (∀ g ∈ group_identical_files (identical_file fs_two_pairs)
        ["./a/f", "./b/f", "./c/f", "./d/f"], ∀ x ∈ g,
      g = ["./a/f", "./b/f", "./c/f", "./d/f"].filter (identical_file fs_two_pairs x)) :=
  have h := group_identical_files_complete fs_two_pairs
    ["./a/f", "./b/f", "./c/f", "./d/f"] (by decide)
  ⟨by decide, h.1, h.2.1, h.2.2.1⟩

/-! ## Claim on the equality oracle -/

/-- C6: without stream failures `identical_file` answers `true` exactly when
both names hold regular files with equal byte sequences; it answers `false`
when one of them is no regular file or when the sizes differ; and all members
of a returned subgroup are regular files of one size. -/
theorem identical_file_spec (fs : FS) (f1 f2 : Path)
    (h1 : fs.unreadable f1 = false) (h2 : fs.unreadable f2 = false) :
    (identical_file fs f1 f2 = true ↔
      is_regular_file fs f1 = true ∧ is_regular_file fs f2 = true ∧
        file_bytes fs f1 = file_bytes fs f2) ∧
    (is_regular_file fs f1 = false ∨ is_regular_file fs f2 = false →
      identical_file fs f1 f2 = false) ∧
    (∀ b1 b2, file_bytes fs f1 = some b1 → file_bytes fs f2 = some b2 →
      b1.length ≠ b2.length → identical_file fs f1 f2 = false) ∧
    (∀ paths : List Path, ∀ g ∈ group_identical_files (identical_file fs) paths,
      ∀ x ∈ g, ∀ y ∈ g, ∃ bx bY, file_bytes fs x = some bx ∧ file_bytes fs y = some bY ∧
        bx.length = bY.length) := by
  have key : identical_file fs f1 f2 = true ↔
      is_regular_file fs f1 = true ∧ is_regular_file fs f2 = true ∧
        file_bytes fs f1 = file_bytes fs f2 := by
    rw [identical_file_iff, is_regular_file_iff, is_regular_file_iff]
    constructor
    · rintro ⟨bs, e1, e2, _, _⟩
      exact ⟨⟨bs, e1⟩, ⟨bs, e2⟩, e1.trans e2.symm⟩
    · rintro ⟨⟨bs, e1⟩, _, e⟩
      exact ⟨bs, e1, e ▸ e1, h1, h2⟩
  refine ⟨key, ?_, ?_, ?_⟩
  · intro hn
    cases e : identical_file fs f1 f2 with
    | false => rfl
    | true =>
      have := key.1 e
      rcases hn with hn | hn
      · rw [this.1] at hn; exact absurd hn (by simp)
      · rw [this.2.1] at hn; exact absurd hn (by simp)
  · intro b1 b2 e1 e2 hne
    cases e : identical_file fs f1 f2 with
    | false => rfl
    | true =>
      have := (key.1 e).2.2
      rw [e1, e2] at this
      exact absurd (congrArg List.length (Option.some.inj this)) hne
  · intro paths g hg x hx y hy
    obtain ⟨p, ms, rfl, _, hms⟩ := group_pivot _ paths g hg
    have hb : ∀ z ∈ p :: ms, ∃ bs, file_bytes fs p = some bs ∧ file_bytes fs z = some bs := by
      intro z hz
      obtain ⟨m, hm⟩ : ∃ m, m ∈ ms := by
        cases ms with
        | nil => contradiction
        | cons a l => exact ⟨a, List.mem_cons_self _ _⟩
      obtain ⟨bs, e1, _, _, _⟩ := (identical_file_iff fs p m).1 (hms m hm)
      rcases List.mem_cons.1 hz with rfl | hz
      · exact ⟨bs, e1, e1⟩
      · obtain ⟨bs', e1', e2', _, _⟩ := (identical_file_iff fs p z).1 (hms z hz)
        exact ⟨bs', e1', e2'⟩
    obtain ⟨bx, ex, ex'⟩ := hb x hx
    obtain ⟨bY, ey, ey'⟩ := hb y hy
    have : bx = bY := Option.some.inj (ex.symm.trans ey)
    exact ⟨bx, bY, ex', ey', by rw [this]⟩

/-- Witness of C6: two copies are found identical. -/
theorem identical_file_spec_witness :
    (fs_two_pairs.unreadable "./a/f" = false ∧ fs_two_pairs.unreadable "./c/f" = false) ∧
    (identical_file fs_two_pairs "./a/f" "./c/f" = true ↔
      is_regular_file fs_two_pairs "./a/f" = true ∧ is_regular_file fs_two_pairs "./c/f" = true ∧
        file_bytes fs_two_pairs "./a/f" = file_bytes fs_two_pairs "./c/f") :=
  ⟨⟨rfl, rfl⟩, (identical_file_spec fs_two_pairs "./a/f" "./c/f" rfl rfl).1⟩

/-! ## Claim on the already-linked detector -/

/-- What the `find_if_not` loop returns, for any expected count. -/
theorem find_if_not_loop_spec (hlc : Path → Option Nat) (n : Nat) (files : List Path) :
    (find_if_not_loop hlc n files = some false ↔ ∀ f ∈ files, hlc f = some n) ∧
    (find_if_not_loop hlc n files = some true ↔
      ∃ pre f c post, files = pre ++ f :: post ∧ (∀ x ∈ pre, hlc x = some n) ∧
        hlc f = some c ∧ c ≠ n) ∧
    (find_if_not_loop hlc n files = none ↔
      ∃ pre f post, files = pre ++ f :: post ∧ (∀ x ∈ pre, hlc x = some n) ∧
        hlc f = none) := by
  induction files with
  | nil => simp [find_if_not_loop]
  | cons a l ih =>
    obtain ⟨ih1, ih2, ih3⟩ := ih
    cases ha : hlc a with
    | none =>
      refine ⟨?_, ?_, ?_⟩
      · simp [find_if_not_loop, ha]
      · simp only [find_if_not_loop, ha]
        constructor
        · intro h; simp at h
        · rintro ⟨pre, f, c, post, e, hpre, hf, _⟩
          cases pre with
          | nil =>
            simp only [List.nil_append, List.cons.injEq] at e
            rw [← e.1, ha] at hf; simp at hf
          | cons b pre =>
            simp only [List.cons_append, List.cons.injEq] at e
            have := hpre b (List.mem_cons_self _ _)
            rw [← e.1, ha] at this; simp at this
      · simp only [find_if_not_loop, ha, true_iff]
        exact ⟨[], a, l, rfl, by simp, ha⟩
    | some c =>
      by_cases hc : c = n
      · subst hc
        refine ⟨?_, ?_, ?_⟩
        · simp [find_if_not_loop, ha, ih1]
        · simp only [find_if_not_loop, ha, if_pos, ih2]
          constructor
          · rintro ⟨pre, f, c', post, e, hpre, hf, hne⟩
            refine ⟨a :: pre, f, c', post, by simp [e], ?_, hf, hne⟩
            intro x hx
            rcases List.mem_cons.1 hx with rfl | hx
            · exact ha
            · exact hpre x hx
          · rintro ⟨pre, f, c', post, e, hpre, hf, hne⟩
            cases pre with
            | nil =>
              simp only [List.nil_append, List.cons.injEq] at e
              rw [← e.1, ha] at hf
              exact absurd (Option.some.inj hf).symm hne
            | cons b pre =>
              simp only [List.cons_append, List.cons.injEq] at e
              exact ⟨pre, f, c', post, e.2, fun x hx => hpre x (List.mem_cons_of_mem _ hx),
                hf, hne⟩
        · simp only [find_if_not_loop, ha, if_pos, ih3]
          constructor
          · rintro ⟨pre, f, post, e, hpre, hf⟩
            refine ⟨a :: pre, f, post, by simp [e], ?_, hf⟩
            intro x hx
            rcases List.mem_cons.1 hx with rfl | hx
            · exact ha
            · exact hpre x hx
          · rintro ⟨pre, f, post, e, hpre, hf⟩
            cases pre with
            | nil =>
              simp only [List.nil_append, List.cons.injEq] at e
              rw [← e.1, ha] at hf; simp at hf
            | cons b pre =>
              simp only [List.cons_append, List.cons.injEq] at e
              exact ⟨pre, f, post, e.2, fun x hx => hpre x (List.mem_cons_of_mem _ hx), hf⟩
      · refine ⟨?_, ?_, ?_⟩
        · simp [find_if_not_loop, ha, hc]
        · simp only [find_if_not_loop, ha, if_neg hc, true_iff]
          exact ⟨[], a, c, l, rfl, by simp, ha, hc⟩
        · simp only [find_if_not_loop, ha, if_neg hc]
          constructor
          · intro h; simp at h
          · rintro ⟨pre, f, post, e, hpre, hf⟩
            cases pre with
            | nil =>
              simp only [List.nil_append, List.cons.injEq] at e
              rw [← e.1, ha] at hf; simp at hf
            | cons b pre =>
              simp only [List.cons_append, List.cons.injEq] at e
              have := hpre b (List.mem_cons_self _ _)
              rw [← e.1, ha] at this
              exact absurd (Option.some.inj this) hc

/-- C10, as stated, fails: when the link count of the first path cannot be
read, `contains_non_hardlinks` does not answer `true`; the error of
`hard_link_count` propagates. -/
theorem contains_non_hardlinks_throws :
    contains_non_hardlinks (hard_link_count fs_xlog) ["./gone/x.log", "./b/x.log"] = none ∧
    contains_non_hardlinks (hard_link_count fs_xlog) ["./gone/x.log", "./b/x.log"]
      ≠ some true := by
  decide

/-- C10, amended: the detector answers "all mutually linked"
(`contains_non_hardlinks` returns `false`) exactly when every lookup succeeds
with the number of paths; `contains_non_hardlinks` returns `true` exactly when
the first path whose lookup does not give that number has a lookup that
succeeds with another number; and the error of the lookup propagates exactly
when the first such path has a failing lookup. -/
theorem contains_non_hardlinks_spec (hlc : Path → Option Nat) (files : List Path) :
    (all_mutually_linked hlc files = some true ↔ ∀ f ∈ files, hlc f = some files.length) ∧
    (contains_non_hardlinks hlc files = some false ↔
      ∀ f ∈ files, hlc f = some files.length) ∧
    (contains_non_hardlinks hlc files = some true ↔
      ∃ pre f c post, files = pre ++ f :: post ∧ (∀ x ∈ pre, hlc x = some files.length) ∧
        hlc f = some c ∧ c ≠ files.length) ∧
    (contains_non_hardlinks hlc files = none ↔
      ∃ pre f post, files = pre ++ f :: post ∧ (∀ x ∈ pre, hlc x = some files.length) ∧
        hlc f = none) := by
  obtain ⟨h1, h2, h3⟩ := find_if_not_loop_spec hlc files.length files
  refine ⟨?_, h1, h2, h3⟩
  rw [← h1]
  unfold all_mutually_linked contains_non_hardlinks
  cases find_if_not_loop hlc files.length files with
  | none => simp
  | some b => cases b <;> simp

/-- Witness of the amended C10: two paths with one link each are reported as
not fully linked. -/
theorem contains_non_hardlinks_spec_witness :
    contains_non_hardlinks (hard_link_count fs_xlog) ["./a/x.log", "./b/x.log"] = some true ∧
    ∃ pre f c post, ["./a/x.log", "./b/x.log"] = pre ++ f :: post ∧
      (∀ x ∈ pre, hard_link_count fs_xlog x = some ["./a/x.log", "./b/x.log"].length) ∧
      hard_link_count fs_xlog f = some c ∧ c ≠ ["./a/x.log", "./b/x.log"].length :=
  ⟨by decide,
    (contains_non_hardlinks_spec (hard_link_count fs_xlog)
      ["./a/x.log", "./b/x.log"]).2.2.1.1 (by decide)⟩

/-! ## Lemmas on the conversion of one subgroup -/

theorem add_name_of_mem {names : List Path} {p : Path} (h : p ∈ names) :
    add_name names p = names := by
  unfold add_name; rw [if_pos h]

/-- The state after the deletion loop over distinct existing names, none of
which refuses the removal. -/
theorem delete_loop_eq (ms : List Path) : ∀ fs : FS, ms.Nodup →
    (∀ m ∈ ms, fs.exists m = true) → (∀ m ∈ ms, fs.deny_remove m = false) →
    delete_loop fs ms = Outcome.returned { fs with
      dirent := fun q => if q ∈ ms then none else fs.dirent q
      nlink := fun j => fs.nlink j - ms.countP (fun m => decide (fs.dirent m = some j))
      journal := fs.journal ++ ms.map Op.remove } := by
  induction ms with
  | nil => intro fs _ _ _; simp [delete_loop]
  | cons m rest ih =>
    intro fs hnd hex hdeny
    have hm := hex m (List.mem_cons_self _ _)
    obtain ⟨i, hi⟩ := Option.isSome_iff_exists.1 hm
    have hmr : m ∉ rest := (List.nodup_cons.1 hnd).1
    have hrem : remove fs m = Outcome.returned { fs with
        dirent := fun q => if q = m then none else fs.dirent q
        nlink := fun j => if j = i then fs.nlink i - 1 else fs.nlink j
        journal := fs.journal ++ [Op.remove m] } := by
      unfold remove
      simp [hi, hdeny m (List.mem_cons_self _ _)]
    rw [delete_loop, hrem]
    simp only
    rw [ih _ (List.nodup_cons.1 hnd).2]
    · congr 1
      have hcount : ∀ j, rest.countP (fun r => decide ((if r = m then none else fs.dirent r) = some j))
          = rest.countP (fun r => decide (fs.dirent r = some j)) := by
        intro j
        refine List.countP_congr (fun r hr => ?_)
        have : r ≠ m := fun e => hmr (e ▸ hr)
        simp [this]
      congr 1
      · funext q
        by_cases hq : q = m
        · simp [hq]
        · simp [hq]
      · funext j
        simp only [hcount, List.countP_cons]
        by_cases hj : j = i
        · subst hj; simp [hi]; omega
        · have : ¬ (fs.dirent m = some j) := by rw [hi]; simpa using fun e => hj e.symm
          simp [hj, this]
      · simp
    · intro r hr
      have : r ≠ m := fun e => hmr (e ▸ hr)
      have := hex r (List.mem_cons_of_mem _ hr)
      simpa [FS.exists, ‹r ≠ m›] using this
    · intro r hr
      exact hdeny r (List.mem_cons_of_mem _ hr)

/-- The state after the linking loop over distinct missing names, none of
which refuses the link. -/
theorem hardlink_loop_eq (src : Path) (i : Nat) (ms : List Path) : ∀ fs : FS, ms.Nodup →
    src ∉ ms → fs.dirent src = some i → fs.node i ≠ some Node.directory →
    (∀ m ∈ ms, fs.dirent m = none) → (∀ m ∈ ms, fs.deny_link m = false) →
    hardlink_loop src fs ms = Outcome.returned { fs with
      names := ms.foldl add_name fs.names
      dirent := fun q => if q ∈ ms then some i else fs.dirent q
      nlink := fun j => if j = i then fs.nlink i + ms.length else fs.nlink j
      journal := fs.journal ++ ms.map (Op.create_hard_link src) } := by
  induction ms with
  | nil =>
    intro fs _ _ _ _ _ _
    simp only [hardlink_loop, List.foldl_nil, List.not_mem_nil, if_false, List.length_nil,
      Nat.add_zero, List.map_nil, List.append_nil]
    congr 1
    cases fs
    simp only [FS.mk.injEq, true_and, and_true]
    funext j
    by_cases hj : j = i
    · simp [hj]
    · simp [hj]
  | cons m rest ih =>
    intro fs hnd hsrc hi hnode hmiss hdeny
    have hm := hmiss m (List.mem_cons_self _ _)
    have hmr : m ∉ rest := (List.nodup_cons.1 hnd).1
    have hsm : src ≠ m := fun e => hsrc (e ▸ List.mem_cons_self _ _)
    have hlink : create_hard_link fs src m = Outcome.returned { fs with
        names := add_name fs.names m
        dirent := fun q => if q = m then some i else fs.dirent q
        nlink := fun j => if j = i then fs.nlink i + 1 else fs.nlink j
        journal := fs.journal ++ [Op.create_hard_link src m] } := by
      unfold create_hard_link
      simp [hi, hnode, FS.exists, hm, hdeny m (List.mem_cons_self _ _)]
    rw [hardlink_loop, if_neg (by simp [FS.exists, hm]), hlink]
    simp only
    rw [ih { fs with
        names := add_name fs.names m
        dirent := fun q => if q = m then some i else fs.dirent q
        nlink := fun j => if j = i then fs.nlink i + 1 else fs.nlink j
        journal := fs.journal ++ [Op.create_hard_link src m] }
      (List.nodup_cons.1 hnd).2 (fun h => hsrc (List.mem_cons_of_mem _ h))
      (by simp [hsm, hi]) hnode]
    · congr 1
      congr 1
      · funext q
        by_cases hq : q = m
        · simp [hq]
        · simp [hq]
      · funext j
        by_cases hj : j = i
        · simp [hj]; omega
        · simp [hj]
      · simp
    · intro r hr
      have : r ≠ m := fun e => hmr (e ▸ hr)
      simpa [this] using hmiss r (List.mem_cons_of_mem _ hr)
    · intro r hr
      exact hdeny r (List.mem_cons_of_mem _ hr)

theorem foldl_add_name_of_subset (ms : List Path) : ∀ names : List Path,
    (∀ m ∈ ms, m ∈ names) → ms.foldl add_name names = names := by
  induction ms with
  | nil => intro _ _; rfl
  | cons m rest ih =>
    intro names h
    rw [List.foldl_cons, add_name_of_mem (h m (List.mem_cons_self _ _))]
    exact ih names (fun r hr => h r (List.mem_cons_of_mem _ hr))

theorem is_regular_file_congr {fs fs' : FS} {p : Path} (hd : fs'.dirent p = fs.dirent p)
    (hn : fs'.node = fs.node) : is_regular_file fs' p = is_regular_file fs p := by
  unfold is_regular_file FS.lookup
  rw [hd, hn]

theorem regular_not_directory {fs : FS} {p : Path} {i : Nat} (hi : fs.dirent p = some i)
    (hreg : is_regular_file fs p = true) : fs.node i ≠ some Node.directory := by
  unfold is_regular_file FS.lookup at hreg
  rw [hi] at hreg
  intro h
  simp only [h] at hreg
  exact absurd hreg (by simp)

/-- The state after `delete_all_except_first` of a subgroup of distinct
existing names, none of which refuses the removal. -/
theorem delete_all_except_first_eq (fs : FS) (s : Path) (ms : List Path)
    (hnd : (s :: ms).Nodup) (hex : ∀ m ∈ ms, fs.exists m = true)
    (hdr : ∀ m ∈ ms, fs.deny_remove m = false) :
    delete_all_except_first fs (s :: ms) = Outcome.returned { fs with
      dirent := fun q => if q ∈ ms then none else fs.dirent q
      nlink := fun j => fs.nlink j - ms.countP (fun m => decide (fs.dirent m = some j))
      journal := fs.journal ++ ms.map Op.remove } := by
  unfold delete_all_except_first
  cases ms with
  | nil =>
    simp only [List.length_cons, List.length_nil]
    rw [if_pos (by omega)]
    simp
  | cons m l =>
    rw [if_neg (by simp), List.tail_cons]
    exact delete_loop_eq (m :: l) fs (List.nodup_cons.1 hnd).2 hex hdr

/-- The state after the conversion of a subgroup of distinct existing names
whose first member is a regular file, when no call is refused: the other
members are bound to the inode of the first. -/
theorem convert_eq (fs : FS) (s : Path) (ms : List Path) (i : Nat) (hne : ms ≠ [])
    (hnd : (s :: ms).Nodup) (hs : fs.dirent s = some i) (hreg : is_regular_file fs s = true)
    (hex : ∀ m ∈ ms, fs.exists m = true)
    (hdr : ∀ m ∈ ms, fs.deny_remove m = false) (hdl : ∀ m ∈ ms, fs.deny_link m = false) :
    convert fs (s :: ms) = Outcome.returned { fs with
      names := ms.foldl add_name fs.names
      dirent := fun q => if q ∈ ms then some i else fs.dirent q
      nlink := fun j =>
        if j = i then fs.nlink i - ms.countP (fun m => decide (fs.dirent m = some i)) + ms.length
        else fs.nlink j - ms.countP (fun m => decide (fs.dirent m = some j))
      journal := fs.journal ++ ms.map Op.remove ++ ms.map (Op.create_hard_link s) } := by
  have hsm : s ∉ ms := (List.nodup_cons.1 hnd).1
  unfold convert
  rw [delete_all_except_first_eq fs s ms hnd hex hdr]
  simp only
  unfold hardlink_first_to_all
  have hlen : ¬ (s :: ms).length < 2 := by
    cases ms with
    | nil => exact absurd rfl hne
    | cons a l => simp
  rw [if_neg hlen]
  simp only
  have hreg' : is_regular_file { fs with
      dirent := fun q => if q ∈ ms then none else fs.dirent q
      nlink := fun j => fs.nlink j - ms.countP (fun m => decide (fs.dirent m = some j))
      journal := fs.journal ++ ms.map Op.remove } s = true := by
    rw [← hreg]
    exact is_regular_file_congr (by simp [hsm]) rfl
  rw [hreg']
  simp only [Bool.not_true, Bool.false_eq_true, if_false]
  rw [hardlink_loop_eq s i ms { fs with
      dirent := fun q => if q ∈ ms then none else fs.dirent q
      nlink := fun j => fs.nlink j - ms.countP (fun m => decide (fs.dirent m = some j))
      journal := fs.journal ++ ms.map Op.remove } (List.nodup_cons.1 hnd).2 hsm
    (by simp [hsm, hs]) (@regular_not_directory fs s i hs hreg)
    (fun m hm => by simp [hm]) hdl]
  congr 1
  congr 1
  funext q
  by_cases hq : q ∈ ms
  · simp [hq]
  · simp [hq]

/-- The state after the conversion of a subgroup whose first member is no
regular file: the other members are removed and no link is created. -/
theorem convert_not_regular_eq (fs : FS) (s : Path) (ms : List Path)
    (hnd : (s :: ms).Nodup) (hreg : is_regular_file fs s = false)
    (hex : ∀ m ∈ ms, fs.exists m = true) (hdr : ∀ m ∈ ms, fs.deny_remove m = false) :
    convert fs (s :: ms) = Outcome.returned { fs with
      dirent := fun q => if q ∈ ms then none else fs.dirent q
      nlink := fun j => fs.nlink j - ms.countP (fun m => decide (fs.dirent m = some j))
      journal := fs.journal ++ ms.map Op.remove } := by
  have hsm : s ∉ ms := (List.nodup_cons.1 hnd).1
  unfold convert
  rw [delete_all_except_first_eq fs s ms hnd hex hdr]
  simp only
  unfold hardlink_first_to_all
  by_cases hlen : (s :: ms).length < 2
  · rw [if_pos hlen]
  · rw [if_neg hlen]
    simp only
    have hreg' : is_regular_file { fs with
        dirent := fun q => if q ∈ ms then none else fs.dirent q
        nlink := fun j => fs.nlink j - ms.countP (fun m => decide (fs.dirent m = some j))
        journal := fs.journal ++ ms.map Op.remove } s = false := by
      rw [← hreg]
      exact is_regular_file_congr (by simp [hsm]) rfl
    rw [hreg']
    simp

theorem hardlink_loop_append (src : Path) (a b : List Path) : ∀ fs : FS,
    hardlink_loop src fs (a ++ b) =
      match hardlink_loop src fs a with
      | Outcome.returned fs1 => hardlink_loop src fs1 b
      | Outcome.threw fs1 => Outcome.threw fs1 := by
  induction a with
  | nil => intro fs; simp [hardlink_loop]
  | cons m rest ih =>
    intro fs
    simp only [List.cons_append, hardlink_loop]
    by_cases he : fs.exists m = true
    · simp only [he, if_true]; exact ih fs
    · simp only [he, if_false]
      cases create_hard_link fs src m with
      | threw fs1 => rfl
      | returned fs1 => exact ih fs1

/-- The state a refused link leaves behind: the members before the refused one
are bound to the inode of the first member, the refused one and the members
after it stay deleted. -/
theorem convert_interrupted_eq (fs : FS) (s : Path) (done : List Path) (failing : Path)
    (todo : List Path) (i : Nat)
    (hnd : (s :: (done ++ failing :: todo)).Nodup) (hs : fs.dirent s = some i)
    (hreg : is_regular_file fs s = true)
    (hex : ∀ m ∈ done ++ failing :: todo, fs.exists m = true)
    (hdr : ∀ m ∈ done ++ failing :: todo, fs.deny_remove m = false)
    (hdl : ∀ m ∈ done, fs.deny_link m = false) (hfail : fs.deny_link failing = true) :
    convert fs (s :: (done ++ failing :: todo)) = Outcome.threw { fs with
      names := done.foldl add_name fs.names
      dirent := fun q => if q ∈ done then some i
                         else if q ∈ failing :: todo then none else fs.dirent q
      nlink := fun j =>
        if j = i then
          fs.nlink i - (done ++ failing :: todo).countP (fun m => decide (fs.dirent m = some i))
            + done.length
        else fs.nlink j - (done ++ failing :: todo).countP (fun m => decide (fs.dirent m = some j))
      journal := fs.journal ++ (done ++ failing :: todo).map Op.remove
        ++ done.map (Op.create_hard_link s) } := by
  have hsm : s ∉ done ++ failing :: todo := (List.nodup_cons.1 hnd).1
  have hnd' : (done ++ failing :: todo).Nodup := (List.nodup_cons.1 hnd).2
  have hdisj : ∀ q ∈ done, q ∉ failing :: todo := fun q hq =>
    (List.nodup_append.1 hnd').2.2 hq
  unfold convert
  rw [delete_all_except_first_eq fs s _ hnd hex hdr]
  simp only
  unfold hardlink_first_to_all
  rw [if_neg (by simp; omega)]
  simp only
  have hreg' : is_regular_file { fs with
      dirent := fun q => if q ∈ done ++ failing :: todo then none else fs.dirent q
      nlink := fun j => fs.nlink j
        - (done ++ failing :: todo).countP (fun m => decide (fs.dirent m = some j))
      journal := fs.journal ++ (done ++ failing :: todo).map Op.remove } s = true := by
    rw [← hreg]
    exact is_regular_file_congr (by simp only [if_neg hsm]) rfl
  rw [hreg']
  simp only [Bool.not_true, Bool.false_eq_true, if_false]
  rw [hardlink_loop_append]
  rw [hardlink_loop_eq s i done { fs with
      dirent := fun q => if q ∈ done ++ failing :: todo then none else fs.dirent q
      nlink := fun j => fs.nlink j
        - (done ++ failing :: todo).countP (fun m => decide (fs.dirent m = some j))
      journal := fs.journal ++ (done ++ failing :: todo).map Op.remove }
    (List.nodup_append.1 hnd').1 (fun h => hsm (List.mem_append_left _ h))
    (by simp only [if_neg hsm, hs]) (@regular_not_directory fs s i hs hreg)
    (fun m hm => by simp only [List.mem_append_left _ hm, if_true]) hdl]
  simp only
  have hfd : failing ∉ done := fun h => hdisj failing h (List.mem_cons_self _ _)
  have hsd : s ∉ done := fun h => hsm (List.mem_append_left _ h)
  have hfm : failing ∈ done ++ failing :: todo :=
    List.mem_append_right _ (List.mem_cons_self _ _)
  rw [hardlink_loop, if_neg (by simp [FS.exists, hfd, hfm])]
  unfold create_hard_link
  simp only [hsd, if_false, if_neg hsm, hs, hfail, Bool.or_true, if_true]
  congr 1
  congr 1
  funext q
  by_cases hq : q ∈ done
  · simp [hq]
  · by_cases hq2 : q ∈ failing :: todo
    · have : q ∈ done ++ failing :: todo := List.mem_append_right _ hq2
      simp only [hq, if_false, this, if_true, hq2]
    · have : q ∉ done ++ failing :: todo := by
        intro h
        rcases List.mem_append.1 h with h | h
        · exact hq h
        · exact hq2 h
      simp only [hq, if_false, this, hq2]

/-! ## Claims on the hardlink converter -/

/-- C2: for a subgroup of at least two distinct existing paths whose first
member is a regular file, and with no removal and no link refused, the
conversion returns; the other members are then bound to the inode of the
first member, the first member and every path outside the subgroup are bound
as before, no inode content changed, the journal holds the removals followed
by the links, and when the members were independent files of one link each,
every member has as many links as the subgroup has members. -/
theorem convert_spec (fs : FS) (survivor : Path) (others : List Path)
    (hn : others ≠ []) (hnd : (survivor :: others).Nodup)
    (hreg : is_regular_file fs survivor = true)
    (hex : ∀ m ∈ others, fs.exists m = true)
    (hdr : ∀ m ∈ others, fs.deny_remove m = false)
    (hdl : ∀ m ∈ others, fs.deny_link m = false) :
    ∃ fs1 fs2,
      delete_all_except_first fs (survivor :: others) = Outcome.returned fs1 ∧
      hardlink_first_to_all fs1 (survivor :: others) = Outcome.returned fs2 ∧
      convert fs (survivor :: others) = Outcome.returned fs2 ∧
      fs2.dirent = (fun q => if q ∈ others then fs.dirent survivor else fs.dirent q) ∧
      fs2.node = fs.node ∧
      ((∀ m ∈ others, m ∈ fs.names) → fs2.names = fs.names) ∧
      (∀ m ∈ survivor :: others, fs2.exists m = true ∧ fs2.dirent m = fs.dirent survivor) ∧
      (fs2.dirent survivor = fs.dirent survivor ∧
        file_bytes fs2 survivor = file_bytes fs survivor) ∧
      (∀ q, q ∉ survivor :: others → fs2.dirent q = fs.dirent q ∧ fs2.lookup q = fs.lookup q) ∧
      fs2.journal = fs.journal ++ others.map Op.remove
        ++ others.map (Op.create_hard_link survivor) ∧
      ((∀ m ∈ survivor :: others, ∃ k, fs.dirent m = some k ∧ fs.nlink k = 1) →
        (survivor :: others).Pairwise (fun a b => fs.dirent a ≠ fs.dirent b) →
        ∀ m ∈ survivor :: others, hard_link_count fs2 m = some (survivor :: others).length) := by
  have hsm : survivor ∉ others := (List.nodup_cons.1 hnd).1
  obtain ⟨i, hi⟩ : ∃ i, fs.dirent survivor = some i := by
    unfold is_regular_file FS.lookup at hreg
    cases h : fs.dirent survivor with
    | none => rw [h] at hreg; simp at hreg
    | some i => exact ⟨i, rfl⟩
  have hD := delete_all_except_first_eq fs survivor others hnd hex hdr
  have hC := convert_eq fs survivor others i hn hnd hi hreg hex hdr hdl
  have hH := hC
  unfold convert at hH
  rw [hD] at hH
  simp only at hH
  have hdir : ∀ m ∈ survivor :: others,
      (if m ∈ others then some i else fs.dirent m) = some i := by
    intro m hm
    rcases List.mem_cons.1 hm with rfl | hm
    · simp [hsm, hi]
    · simp [hm]
  refine ⟨_, _, hD, hH, hC, ?_, rfl, ?_, ?_, ?_, ?_, rfl, ?_⟩
  · funext q
    simp only [hi]
  · intro hmem
    exact foldl_add_name_of_subset others fs.names hmem
  · intro m hm
    simp only [FS.exists, hdir m hm, hi]
    exact ⟨rfl, trivial⟩
  · refine ⟨by simp only [if_neg hsm], ?_⟩
    unfold file_bytes FS.lookup
    simp only [if_neg hsm]
  · intro q hq
    have : q ∉ others := fun h => hq (List.mem_cons_of_mem _ h)
    unfold FS.lookup
    simp only [if_neg this]
    exact ⟨trivial, trivial⟩
  · intro hone hinj m hm
    unfold hard_link_count
    simp only [hdir m hm, if_true]
    have hcount : others.countP (fun m => decide (fs.dirent m = some i)) = 0 := by
      rw [List.countP_eq_zero]
      intro x hx
      have := (List.pairwise_cons.1 hinj).1 x hx
      rw [hi] at this
      simpa using fun e => this e.symm
    obtain ⟨k, hk, hk1⟩ := hone survivor (List.mem_cons_self _ _)
    rw [hi] at hk
    cases hk
    rw [hcount, hk1, List.length_cons]
    simp only [Nat.sub_zero, Option.some.injEq]
    omega

/-- Witness of C2: the three copies of `report.txt` of the specification's
example end with three links each. -/
theorem convert_spec_witness :
    ∃ fs1 fs2,
      delete_all_except_first fs_report
        ("./a/report.txt" :: ["./b/report.txt", "./c/report.txt"]) = Outcome.returned fs1 ∧
      hardlink_first_to_all fs1
        ("./a/report.txt" :: ["./b/report.txt", "./c/report.txt"]) = Outcome.returned fs2 ∧
      convert fs_report
        ("./a/report.txt" :: ["./b/report.txt", "./c/report.txt"]) = Outcome.returned fs2 ∧
      ∀ m ∈ "./a/report.txt" :: ["./b/report.txt", "./c/report.txt"],
        hard_link_count fs2 m
          = some ("./a/report.txt" :: ["./b/report.txt", "./c/report.txt"]).length := by
  obtain ⟨fs1, fs2, h1, h2, h3, _, _, _, _, _, _, _, h4⟩ :=
    convert_spec fs_report "./a/report.txt" ["./b/report.txt", "./c/report.txt"]
      (by decide) (by decide) (by decide) (by decide) (by decide) (by decide)
  exact ⟨fs1, fs2, h1, h2, h3, h4 (by decide) (by decide)⟩

/-- C3, evaluated on the code: with a first member that is no regular file,
the conversion of the subgroup `a/f, b/f` removes `b/f` and creates no link;
the guard of `hardlink_first_to_all` is reached only after
`delete_all_except_first` has run. -/
theorem convert_deletes_without_survivor :
    is_regular_file fs_survivor_not_regular "./a/f" = false ∧
    fs_survivor_not_regular.dirent "./b/f" = some 1 ∧
    (convert fs_survivor_not_regular ["./a/f", "./b/f"]).has_thrown = false ∧
    (convert fs_survivor_not_regular ["./a/f", "./b/f"]).fs.journal = [Op.remove "./b/f"] ∧
    (convert fs_survivor_not_regular ["./a/f", "./b/f"]).fs.dirent "./b/f" = none := by
  decide

/-- C4, as stated, fails: of four copies, with the link at `c/f` refused, the
conversion is interrupted after `b/f` has been converted, and the members not
yet converted, `c/f` and `d/f`, are missing. -/
theorem convert_interrupted_loses_paths :
    (∀ m ∈ ["./a/f", "./b/f", "./c/f", "./d/f"], is_regular_file fs_link_refused m = true) ∧
    (convert fs_link_refused ["./a/f", "./b/f", "./c/f", "./d/f"]).has_thrown = true ∧
    (convert fs_link_refused ["./a/f", "./b/f", "./c/f", "./d/f"]).fs.dirent "./b/f"
      = fs_link_refused.dirent "./a/f" ∧
    (convert fs_link_refused ["./a/f", "./b/f", "./c/f", "./d/f"]).fs.exists "./c/f" = false ∧
    (convert fs_link_refused ["./a/f", "./b/f", "./c/f", "./d/f"]).fs.exists "./d/f" = false := by
  decide

/-- C4, amended: for a subgroup of distinct regular files, when the creation
of a link is refused after the links of the members in `done` have been
created, the conversion ends by the error; every member of `done` is then
bound to the inode of the first member, the first member is bound as before
and no inode content changed, and the member whose link was refused and the
members after it are missing, all of them having been removed before the first
link was created. -/
theorem convert_interrupted (fs : FS) (survivor : Path) (done : List Path) (failing : Path)
    (todo : List Path)
    (hnd : (survivor :: (done ++ failing :: todo)).Nodup)
    (hreg : ∀ m ∈ survivor :: (done ++ failing :: todo), is_regular_file fs m = true)
    (hdr : ∀ m ∈ done ++ failing :: todo, fs.deny_remove m = false)
    (hdl : ∀ m ∈ done, fs.deny_link m = false) (hfail : fs.deny_link failing = true) :
    ∃ fs2,
      convert fs (survivor :: (done ++ failing :: todo)) = Outcome.threw fs2 ∧
      (∀ m ∈ done, fs2.exists m = true ∧ fs2.dirent m = fs.dirent survivor) ∧
      fs2.dirent survivor = fs.dirent survivor ∧
      fs2.node = fs.node ∧
      (∀ m ∈ failing :: todo, fs2.exists m = false) ∧
      (∀ q, q ∉ survivor :: (done ++ failing :: todo) → fs2.dirent q = fs.dirent q) ∧
      fs2.journal = fs.journal ++ (done ++ failing :: todo).map Op.remove
        ++ done.map (Op.create_hard_link survivor) := by
  have hsm : survivor ∉ done ++ failing :: todo := (List.nodup_cons.1 hnd).1
  have hnd' : (done ++ failing :: todo).Nodup := (List.nodup_cons.1 hnd).2
  have hex : ∀ m, is_regular_file fs m = true → fs.exists m = true := by
    intro m hm
    unfold is_regular_file FS.lookup at hm
    unfold FS.exists
    cases h : fs.dirent m with
    | none => rw [h] at hm; simp at hm
    | some i => rfl
  obtain ⟨i, hi⟩ := Option.isSome_iff_exists.1 (hex survivor (hreg survivor (List.mem_cons_self _ _)))
  refine ⟨_, convert_interrupted_eq fs survivor done failing todo i hnd hi
    (hreg survivor (List.mem_cons_self _ _))
    (fun m hm => hex m (hreg m (List.mem_cons_of_mem _ hm))) hdr hdl hfail, ?_, ?_, rfl, ?_, ?_, rfl⟩
  · intro m hm
    simp only [FS.exists, if_pos hm, hi]
    exact ⟨rfl, trivial⟩
  · have h1 : survivor ∉ done := fun h => hsm (List.mem_append_left _ h)
    have h2 : survivor ∉ failing :: todo := fun h => hsm (List.mem_append_right _ h)
    simp only [if_neg h1, if_neg h2]
  · intro m hm
    have h1 : m ∉ done := fun h => (List.nodup_append.1 hnd').2.2 h hm
    simp only [FS.exists, if_neg h1, if_pos hm]
    rfl
  · intro q hq
    have h1 : q ∉ done := fun h => hq (List.mem_cons_of_mem _ (List.mem_append_left _ h))
    have h2 : q ∉ failing :: todo :=
      fun h => hq (List.mem_cons_of_mem _ (List.mem_append_right _ h))
    simp only [if_neg h1, if_neg h2]

/-- Witness of the amended C4 on four copies with the link at `c/f` refused. -/
theorem convert_interrupted_witness :
    ∃ fs2,
      convert fs_link_refused ("./a/f" :: (["./b/f"] ++ "./c/f" :: ["./d/f"]))
        = Outcome.threw fs2 ∧
      (∀ m ∈ ["./b/f"], fs2.exists m = true ∧ fs2.dirent m = fs_link_refused.dirent "./a/f") ∧
      (∀ m ∈ "./c/f" :: ["./d/f"], fs2.exists m = false) := by
  obtain ⟨fs2, h1, h2, _, _, h3, _, _⟩ :=
    convert_interrupted fs_link_refused "./a/f" ["./b/f"] "./c/f" ["./d/f"]
      (by decide) (by decide) (by decide) (by decide) (by decide)
  exact ⟨fs2, h1, h2, h3⟩

/-! ## Lemmas on repeated runs -/

theorem Frame.trans {a b c : FS} (h1 : Frame a b) (h2 : Frame b c) : Frame a c :=
  ⟨h2.1.trans h1.1, h2.2.1.trans h1.2.1, h2.2.2.1.trans h1.2.2.1,
   h2.2.2.2.1.trans h1.2.2.2.1, h2.2.2.2.2.1.trans h1.2.2.2.2.1,
   fun q => (h2.2.2.2.2.2.1 q).trans (h1.2.2.2.2.2.1 q),
   fun q => (h2.2.2.2.2.2.2 q).trans (h1.2.2.2.2.2.2 q)⟩

theorem Static.static_sub {fs : FS} {l l' : List Path} (hs : Static fs l) (h : l'.Sublist l) :
    Static fs l' :=
  ⟨hs.1.sublist h, fun p hp => hs.2 p (h.subset hp)⟩

theorem FreshAll.fresh_sub {fs : FS} {l l' : List Path} (hs : FreshAll fs l) (h : l'.Sublist l) :
    FreshAll fs l' :=
  ⟨hs.1.sublist h, fun p hp => hs.2 p (h.subset hp)⟩

theorem FreshAll.fresh_perm {fs : FS} {l l' : List Path} (hs : FreshAll fs l) (h : l'.Perm l) :
    FreshAll fs l' :=
  ⟨(h.pairwise_iff (fun {_ _} hab => Ne.symm hab)).2 hs.1, fun p hp => hs.2 p (h.subset hp)⟩

theorem Static.static_perm {fs : FS} {l l' : List Path} (hs : Static fs l) (h : l'.Perm l) :
    Static fs l' :=
  ⟨h.nodup_iff.2 hs.1, fun p hp => hs.2 p (h.subset hp)⟩

theorem map_push_back_perm (m : List (String × List Path)) (key : String) (p : Path) :
    ((map_push_back m key p).map Prod.snd).flatten.Perm (p :: (m.map Prod.snd).flatten) := by
  induction m with
  | nil => simp [map_push_back]
  | cons e m ih =>
    obtain ⟨k, group⟩ := e
    unfold map_push_back
    by_cases h1 : key = k
    · rw [if_pos h1]
      simp only [List.map_cons, List.flatten_cons, List.append_assoc, List.singleton_append]
      exact List.perm_middle
    · rw [if_neg h1]
      by_cases h2 : key_lt (key.data.map Char.toNat) (k.data.map Char.toNat) = true
      · rw [if_pos h2]
        simp
      · rw [if_neg h2]
        simp only [List.map_cons, List.flatten_cons]
        exact (List.Perm.append_left group ih).trans List.perm_middle

theorem foldl_push_back_perm (fs : FS) (l : List Path) : ∀ m : List (String × List Path),
    ((l.foldl (fun m p => if !is_regular_file fs p then m else map_push_back m (filename p) p)
      m).map Prod.snd).flatten.Perm
      ((m.map Prod.snd).flatten ++ l.filter (is_regular_file fs)) := by
  induction l with
  | nil => intro m; simp
  | cons p l ih =>
    intro m
    rw [List.foldl_cons]
    by_cases hp : is_regular_file fs p = true
    · simp only [hp, Bool.not_true, Bool.false_eq_true, if_false]
      rw [List.filter_cons_of_pos hp]
      exact (ih _).trans (((map_push_back_perm m (filename p) p).append_right _).trans
        (by simpa using List.perm_middle.symm))
    · simp only [hp, Bool.not_false, if_true]
      rw [List.filter_cons_of_neg hp]
      simpa using ih m

theorem recursive_directory_iterator_some (fs : FS) (root : Path) (entries : List Path)
    (h : recursive_directory_iterator fs root = some entries) :
    entries = directory_entries fs root := by
  unfold recursive_directory_iterator at h
  split at h
  · exact absurd h (by simp)
  · exact (Option.some.inj h).symm

/-- The filename groups hold regular files of the tree, each at most once (all
of them, each once, when `root` is a directory). -/
theorem find_filename_groups_subperm (fs : FS) (root : Path) (groups : List (List Path))
    (h : find_filename_groups fs root = some groups) :
    groups.flatten.Subperm (tree_files fs root) := by
  unfold find_filename_groups at h
  by_cases hd : is_directory fs root = true
  · simp only [hd, Bool.not_true, Bool.false_eq_true, if_false] at h
    cases hit : recursive_directory_iterator fs root with
    | none =>
      rw [hit] at h
      exact absurd h (by simp)
    | some entries =>
      rw [hit] at h
      simp only [Option.some.injEq] at h
      subst h
      rw [recursive_directory_iterator_some fs root entries hit]
      unfold tree_files
      exact (by simpa using foldl_push_back_perm fs (directory_entries fs root) [] :
        List.Perm _ ((directory_entries fs root).filter (is_regular_file fs))).subperm
  · simp only [hd, Bool.not_false, if_true, Option.some.injEq] at h
    subst h
    exact List.nil_subperm

/-- On a tree of independent regular files the filename groups are distinct
independent regular files. -/
theorem IndependentTree.groups {fs : FS} {root : Path} (h : IndependentTree fs root)
    {groups : List (List Path)} (hg : find_filename_groups fs root = some groups) :
    Static fs groups.flatten ∧ FreshAll fs groups.flatten := by
  obtain ⟨l, hperm, hsub⟩ := find_filename_groups_subperm fs root groups hg
  have hnames : (tree_files fs root).Sublist fs.names :=
    (List.filter_sublist _).trans (List.filter_sublist _)
  have hst : Static fs (tree_files fs root) :=
    ⟨h.1.sublist hnames, fun p hp => ⟨hnames.subset hp, (List.mem_filter.1 hp).2⟩⟩
  have hfr : FreshAll fs (tree_files fs root) := ⟨h.2.1, h.2.2⟩
  exact ⟨(hst.static_sub hsub).static_perm hperm.symm,
    (hfr.fresh_sub hsub).fresh_perm hperm.symm⟩

/-- The traversal reaches the files below a root that ends with the directory
separator, and an error of the traversal ends `main` before any mutation. -/
theorem traversal_examples :
    below "/" "/w/a" = true ∧ below "/w" "/w/a" = true ∧ below "/w" "/wx/a" = false ∧
    find_filename_groups fs_rootdir "/" = some [["/a/f", "/b/f"]] ∧
    (main fs_rootdir "/").fs.journal = [Op.remove "/b/f", Op.create_hard_link "/a/f" "/b/f"] ∧
    find_filename_groups fs_locked "." = none ∧
    (main fs_locked ".").has_thrown = true ∧ (main fs_locked ".").fs.journal = [] := by
  decide

/-! ## Claim on repeated runs -/

end ReplaceCopiesByHardlinks
